import Mathlib

/-!
Verification of the mean-calculation micro-benchmark (src/main.rs).

The program computes the arithmetic mean of a buffer of 32-bit floats with
three strategies: a scalar left-to-right sum (`calculate_mean_scalar`), an
AVX-style accumulation in groups of 8 lanes (`calculate_mean_simd_avx`,
dispatched by `calculate_mean_simd` on hardware-feature detection), and a
chunked sum over exact chunks of 8 plus a scalar remainder
(`calculate_mean_chunks`).  It also formats size labels (`format_size`) and
speedup ratios (the guarded quotient in `main`, embedded as `speedup`).

The reducers are embedded generically over an arithmetic interface `Arith F`
(zero, addition, division, conversion of a length to `F`), translated
operation-for-operation from the Rust source.  Two instantiations are used:

* `ratA`, exact rational arithmetic, for the structural / exact-quantity
  statements; and
* `f32A`, a model of IEEE-754 binary32 arithmetic (`F32`): finite values are
  a sign, a significand `m < 2^24` and an exponent `e ≥ -149`, with
  round-to-nearest, ties-to-even implemented exactly over `ℚ` (`roundF32`),
  gradual underflow (grid clamped at `2^-149`), overflow to infinity, signed
  zeros and NaN, matching Rust `f32` addition, division and `usize → f32`
  casts on canonically-represented values.
-/

unseal Rat.add Rat.mul Rat.inv Rat.sub

/-- The rational number `2^k` for an integer exponent `k`. -/
def pow2 (k : Int) : ℚ :=
  if 0 ≤ k then ((2 ^ k.toNat : Nat) : ℚ) else 1 / ((2 ^ (-k).toNat : Nat) : ℚ)

/-- Base-2 logarithm on `Nat` by repeated halving, with explicit fuel so that
it reduces by kernel computation. -/
def log2fuel : Nat → Nat → Nat
  | 0, _ => 0
  | fuel + 1, n => if n < 2 then 0 else log2fuel fuel (n / 2) + 1

/-- Floor of the base-2 logarithm of a natural number (0 for input 0). -/
def natLog2 (n : Nat) : Nat := log2fuel n n

/-- Round the fraction `n / d` to the nearest natural number, ties to even. -/
def rdiv_ne (n d : Nat) : Nat :=
  if 2 * (n % d) < d then n / d
  else if d < 2 * (n % d) then n / d + 1
  else if (n / d) % 2 = 0 then n / d else n / d + 1

/-- Floor of the base-2 logarithm of a positive rational: the unique `E` with
`2^E ≤ q < 2^(E+1)`. -/
def qlog2 (q : ℚ) : Int :=
  let k : Int := (natLog2 q.num.natAbs : Int) - (natLog2 q.den : Int)
  if pow2 k ≤ q then k else k - 1

/-- IEEE-754 binary32 values: NaN (collapsed to one value), signed infinities,
and finite values `(-1)^sign * m * 2^e`.  Canonical finite values satisfy
`F32.canonical`; the sign `true` means negative. -/
inductive F32 where
  | nan : F32
  | inf : Bool → F32
  | fin : Bool → Nat → Int → F32
deriving DecidableEq

/-- Positive zero. -/
def posZero : F32 := .fin false 0 (-149)

/-- Negative zero. -/
def negZero : F32 := .fin true 0 (-149)

/-- Exact rational value of a finite float component triple. -/
def finVal (s : Bool) (m : Nat) (e : Int) : ℚ :=
  (if s then -1 else 1) * m * pow2 e

/-- Exact rational value of a float (0 for NaN and infinities). -/
def F32.toRat : F32 → ℚ
  | .fin s m e => finVal s m e
  | _ => 0

/-- Canonical bit-pattern representatives: subnormals (and zeros) have
exponent -149 and significand below 2^23; normals have a 24-bit significand
with leading bit set and exponent between -149 and 104. -/
def F32.canonical : F32 → Bool
  | .nan => true
  | .inf _ => true
  | .fin _ m e =>
      decide ((e = -149 ∧ m < 2 ^ 23) ∨
        (2 ^ 23 ≤ m ∧ m < 2 ^ 24 ∧ -149 ≤ e ∧ e ≤ 104))

/-- A float that is not a negative zero and not a non-canonical zero: every
zero it may be is exactly `posZero`.  This is an invariant of the running
accumulator of the left-to-right sums, which start from positive zero. -/
def F32.okAcc : F32 → Bool
  | .fin s m e => decide (m ≠ 0 ∨ (s = false ∧ e = -149))
  | _ => true

/-- Round a positive rational to the binary32 magnitude grid
(round-to-nearest, ties-to-even): returns the significand and exponent before
the overflow check, with the grid clamped at `2^-149` for gradual underflow. -/
def roundMag (q : ℚ) : Nat × Int :=
  let g := max (qlog2 q - 23) (-149)
  let x := q / pow2 g
  let m := rdiv_ne x.num.natAbs x.den
  if m = 2 ^ 24 then (2 ^ 23, g + 1) else (m, g)

/-- Round an exact rational result to binary32: zero goes to positive zero,
magnitudes are rounded to nearest (ties to even), results below the grid
underflow to a signed zero, and results at or above 2^128 overflow to a
signed infinity. -/
def roundF32 (r : ℚ) : F32 :=
  if r = 0 then posZero
  else
    let s := decide (r < 0)
    let p := roundMag |r|
    if p.1 = 0 then (if s then negZero else posZero)
    else if 104 < p.2 then .inf s
    else .fin s p.1 p.2

/-- IEEE-754 binary32 addition (round-to-nearest, ties-to-even).  The sum of
two finite operands is formed exactly and rounded; an operand equal to zero
returns the other operand unchanged (the exact sum is then already
representable), and an exactly cancelling sum returns positive zero unless
both operands are negative zeros. -/
def f32add (x y : F32) : F32 :=
  match x, y with
  | .nan, _ => .nan
  | _, .nan => .nan
  | .inf sx, .inf sy => if sx = sy then .inf sx else .nan
  | .inf sx, .fin _ _ _ => .inf sx
  | .fin _ _ _, .inf sy => .inf sy
  | .fin sx mx ex, .fin sy my ey =>
      let r := finVal sx mx ex + finVal sy my ey
      if r = 0 then (if sx && sy then negZero else posZero)
      else if mx = 0 then .fin sy my ey
      else if my = 0 then .fin sx mx ex
      else roundF32 r

/-- IEEE-754 binary32 division (round-to-nearest, ties-to-even), with the
special-value rules: 0/0 and inf/inf are NaN, finite/0 and inf/finite are a
signed infinity, finite/inf is a signed zero; otherwise the exact quotient is
rounded, with underflow to a signed zero and overflow to a signed infinity. -/
def f32div (x y : F32) : F32 :=
  match x, y with
  | .nan, _ => .nan
  | _, .nan => .nan
  | .inf _, .inf _ => .nan
  | .inf sx, .fin sy _ _ => .inf (xor sx sy)
  | .fin sx _ _, .inf sy => if xor sx sy then negZero else posZero
  | .fin sx mx ex, .fin sy my ey =>
      if my = 0 then
        if mx = 0 then .nan else .inf (xor sx sy)
      else
        let r := finVal sx mx ex / finVal sy my ey
        if r = 0 then (if xor sx sy then negZero else posZero)
        else roundF32 r

/-- The arithmetic interface a reducer needs: the additive zero, addition,
division, and the conversion applied to `data.len()` (Rust `as f32`). -/
structure Arith (F : Type) where
  zero : F
  add : F → F → F
  div : F → F → F
  ofLen : Nat → F

/-- Binary32 arithmetic; `usize as f32` rounds to nearest, ties to even. -/
def f32A : Arith F32 := ⟨posZero, f32add, f32div, fun n => roundF32 (n : ℚ)⟩

/-- Exact rational arithmetic (the mathematical quantity the strategies
compute; division by zero is Lean's junk value 0). -/
def ratA : Arith ℚ := ⟨0, (· + ·), (· / ·), fun n => (n : ℚ)⟩

/-- Rust `iter().sum()`: left fold of addition starting from zero. -/
def sumList (A : Arith F) (l : List F) : F := l.foldl A.add A.zero

/-- Embedding of `calculate_mean_scalar` (main.rs:109-112): sum the elements
in index order and divide by the length. -/
def calculate_mean_scalar (A : Arith F) (data : List F) : F :=
  A.div (sumList A data) (A.ofLen data.length)

/-- The AVX accumulation loop of `calculate_mean_simd_avx` (main.rs:136-142):
while at least 8 elements remain, add the next 8 elements lane-wise into the
8-lane accumulator; returns the final accumulator and the remaining
elements `data[i..]`. -/
def avxLoop (A : Arith F) : List F → List F → List F × List F
  | a0 :: a1 :: a2 :: a3 :: a4 :: a5 :: a6 :: a7 :: rest, acc =>
      avxLoop A rest (List.zipWith A.add acc [a0, a1, a2, a3, a4, a5, a6, a7])
  | data, acc => (acc, data)

/-- Embedding of `calculate_mean_simd_avx` (main.rs:131-155): accumulate in
groups of 8 lanes starting from an all-zero register, sum the 8 spilled lanes
left-to-right, add the scalar sum of the remaining elements, divide by the
length. -/
def calculate_mean_simd_avx (A : Arith F) (data : List F) : F :=
  let p := avxLoop A data (List.replicate 8 A.zero)
  let simd_sum := sumList A p.1
  let remaining_sum := sumList A p.2
  A.div (A.add simd_sum remaining_sum) (A.ofLen data.length)

/-- Rust `chunks_exact(8)`: the list of full chunks of 8 consecutive
elements, together with the remainder of length below 8. -/
def chunksExact8 : List F → List (List F) × List F
  | a0 :: a1 :: a2 :: a3 :: a4 :: a5 :: a6 :: a7 :: rest =>
      let p := chunksExact8 rest
      ([a0, a1, a2, a3, a4, a5, a6, a7] :: p.1, p.2)
  | data => ([], data)

/-- Embedding of `calculate_mean_chunks` (main.rs:158-170): sum each full
chunk of 8, sum the chunk sums, add the scalar sum of the remainder, divide
by the length. -/
def calculate_mean_chunks (A : Arith F) (data : List F) : F :=
  let p := chunksExact8 data
  let chunk_sum := sumList A (p.1.map (sumList A))
  let remainder_sum := sumList A p.2
  A.div (A.add chunk_sum remainder_sum) (A.ofLen data.length)

/-- Target architectures distinguished by the source's conditional
compilation: x86_64 (main.rs:115-122) and every other architecture
(main.rs:124-127). -/
inductive Arch where
  | x86_64 : Arch
  | other : Arch
deriving DecidableEq

/-- Embedding of `calculate_mean_simd`: on x86_64 it dispatches on the
runtime AVX feature detection, falling back to the scalar reducer; on other
architectures it is the chunked reducer.  The fallback is a total function:
no error value exists. -/
def calculate_mean_simd (A : Arith F) (arch : Arch) (avx_detected : Bool)
    (data : List F) : F :=
  match arch with
  | .x86_64 =>
      if avx_detected then calculate_mean_simd_avx A data
      else calculate_mean_scalar A data
  | .other => calculate_mean_chunks A data

/-- Embedding of `format_size` (main.rs:100-106): the match guards
`n >= 1_000_000` and `n >= 1_000` tried in order, with truncating natural
division. -/
def format_size (size : Nat) : String :=
  if 1000000 ≤ size then Nat.repr (size / 1000000) ++ "M"
  else if 1000 ≤ size then Nat.repr (size / 1000) ++ "K"
  else Nat.repr size

/-- Embedding of the speedup computation in `main` (main.rs:28-29): the
quotient of the scalar duration by the other strategy's duration, guarded to
0 when the denominator is not positive.  The f64 arithmetic of the source is
modelled exactly over `ℚ`; the claim under check concerns the zero guard and
the quotient. -/
def speedup (scalar_ns other_ns : ℚ) : ℚ :=
  if 0 < other_ns then scalar_ns / other_ns else 0

/-- Modelled from the spec (section 4.1): the scalar mean contract as worded
there, namely summing all elements left-to-right in index order starting
from 0.0 and dividing that sum by N.  Used to compare the source's
`calculate_mean_scalar` against the spec's wording. -/
def scalarMeanPerSpec (A : Arith F) (data : List F) : F :=
  A.div (data.foldl A.add A.zero) (A.ofLen data.length)

/-- The 32-bit float with significand 11184814 and exponent -23, about
1.3333335: a value for which the f32 mean of three equal copies is not the
value itself (the sum 3v rounds to a tie broken to even, and the division
rounds down). -/
def vTriple : F32 := .fin false 11184814 (-23)

/-- The 32-bit float 2^25. -/
def big25 : F32 := .fin false 8388608 2

/-- The 32-bit float -2^25. -/
def negBig25 : F32 := .fin true 8388608 2

/-- The 32-bit float 3.0. -/
def three32 : F32 := .fin false 12582912 (-22)

/-- A 16-element buffer with catastrophic cancellation across the chunk
boundary: the scalar sum cancels 2^25 against -2^25 before absorbing 3, while
the chunked sum rounds -2^25 + 3 inside the second chunk, so the two means
are 3/16 and 4/16. -/
def cancelBuf : List F32 :=
  [big25, posZero, posZero, posZero, posZero, posZero, posZero, posZero,
   negBig25, three32, posZero, posZero, posZero, posZero, posZero, posZero]

/-! ### Basic facts about `pow2` -/

theorem pow2_eq_zpow (k : Int) : pow2 k = (2 : ℚ) ^ k := by
  rcases k with n | n
  · simp [pow2, Int.toNat_ofNat, zpow_natCast]
  · have h : ¬ (0 ≤ Int.negSucc n) := not_le.mpr (Int.negSucc_lt_zero n)
    simp only [pow2, if_neg h, zpow_negSucc]
    have h2 : (-Int.negSucc n).toNat = n + 1 := rfl
    rw [h2, one_div]
    push_cast
    rfl

theorem pow2_pos (k : Int) : 0 < pow2 k := by
  rw [pow2_eq_zpow]; exact zpow_pos (by norm_num) k

theorem pow2_ne_zero (k : Int) : pow2 k ≠ 0 := (pow2_pos k).ne'

theorem pow2_add (a b : Int) : pow2 (a + b) = pow2 a * pow2 b := by
  rw [pow2_eq_zpow, pow2_eq_zpow, pow2_eq_zpow, zpow_add₀ (by norm_num : (2:ℚ) ≠ 0)]

theorem pow2_sub (a b : Int) : pow2 (a - b) = pow2 a / pow2 b := by
  rw [pow2_eq_zpow, pow2_eq_zpow, pow2_eq_zpow, zpow_sub₀ (by norm_num : (2:ℚ) ≠ 0)]

theorem pow2_natCast (a : Nat) : pow2 (a : Int) = ((2 ^ a : Nat) : ℚ) := by
  simp [pow2]

theorem pow2_le_pow2 {a b : Int} (h : a ≤ b) : pow2 a ≤ pow2 b := by
  rw [pow2_eq_zpow, pow2_eq_zpow]
  exact zpow_le_zpow_right₀ (by norm_num) h

/-! ### Correctness of the fuel-based base-2 logarithm -/

theorem log2fuel_spec : ∀ (fuel n : Nat), 1 ≤ n → n ≤ fuel →
    2 ^ log2fuel fuel n ≤ n ∧ n < 2 ^ (log2fuel fuel n + 1)
  | 0, n, h1, h2 => by omega
  | fuel + 1, n, h1, h2 => by
    by_cases h : n < 2
    · have hn : n = 1 := by omega
      simp [log2fuel, h, hn]
    · have h1r : 1 ≤ n / 2 := by omega
      have h2r : n / 2 ≤ fuel := by omega
      have ih := log2fuel_spec fuel (n / 2) h1r h2r
      have e1 : 2 ^ (log2fuel fuel (n / 2) + 1) = 2 * 2 ^ log2fuel fuel (n / 2) := by
        ring
      have e2 : 2 ^ (log2fuel fuel (n / 2) + 1 + 1) =
          2 * 2 ^ (log2fuel fuel (n / 2) + 1) := by ring
      simp only [log2fuel, if_neg h]
      omega

theorem natLog2_spec {n : Nat} (h : 1 ≤ n) :
    2 ^ natLog2 n ≤ n ∧ n < 2 ^ (natLog2 n + 1) :=
  log2fuel_spec n n h le_rfl

/-! ### Bounds for round-to-nearest-even division -/

theorem rdiv_ne_ge (n d : Nat) : n / d ≤ rdiv_ne n d := by
  unfold rdiv_ne
  split_ifs <;> omega

theorem rdiv_ne_le (n d : Nat) : rdiv_ne n d ≤ n / d + 1 := by
  unfold rdiv_ne
  split_ifs <;> omega

theorem rdiv_ne_one (n : Nat) : rdiv_ne n 1 = n := by
  unfold rdiv_ne
  split_ifs <;> omega

/-! ### Bridging natural division and rational values -/

theorem rat_eq_num_div_den (x : ℚ) (hx : 0 ≤ x) :
    x = ((x.num.natAbs : ℚ)) / ((x.den : ℚ)) := by
  have h0 : 0 ≤ x.num := Rat.num_nonneg.mpr hx
  have hnum : ((x.num.natAbs : ℚ)) = ((x.num : ℚ)) := by
    rw [Int.cast_natAbs]
    exact_mod_cast congrArg (fun z : Int => (z : ℚ)) (abs_of_nonneg h0)
  rw [hnum]
  exact (Rat.num_div_den x).symm

theorem nat_div_le_rat (x : ℚ) (hx : 0 ≤ x) :
    ((x.num.natAbs / x.den : Nat) : ℚ) ≤ x := by
  have hd : (0 : ℚ) < (x.den : ℚ) := by exact_mod_cast x.den_pos
  have key : ((x.num.natAbs / x.den : Nat) : ℚ) * (x.den : ℚ) ≤ (x.num.natAbs : ℚ) := by
    exact_mod_cast Nat.cast_le.mpr (Nat.div_mul_le_self x.num.natAbs x.den)
  calc ((x.num.natAbs / x.den : Nat) : ℚ) ≤ (x.num.natAbs : ℚ) / (x.den : ℚ) := by
        rw [le_div_iff₀ hd]; exact key
    _ = x := (rat_eq_num_div_den x hx).symm

theorem rat_lt_nat_div_succ (x : ℚ) (hx : 0 ≤ x) :
    x < ((x.num.natAbs / x.den + 1 : Nat) : ℚ) := by
  have hd : (0 : ℚ) < (x.den : ℚ) := by exact_mod_cast x.den_pos
  have hlt : x.num.natAbs < (x.num.natAbs / x.den + 1) * x.den := by
    have h1 : x.num.natAbs % x.den < x.den := Nat.mod_lt _ x.den_pos
    calc x.num.natAbs
        = x.den * (x.num.natAbs / x.den) + x.num.natAbs % x.den :=
          (Nat.div_add_mod _ _).symm
      _ < x.den * (x.num.natAbs / x.den) + x.den := Nat.add_lt_add_left h1 _
      _ = (x.num.natAbs / x.den + 1) * x.den := by ring
  calc x = (x.num.natAbs : ℚ) / (x.den : ℚ) := rat_eq_num_div_den x hx
    _ < ((x.num.natAbs / x.den + 1 : Nat) : ℚ) := by
        rw [div_lt_iff₀ hd]
        exact_mod_cast hlt

/-! ### Correctness of `qlog2`: it brackets a positive rational between
consecutive powers of two -/

theorem qlog2_spec (q : ℚ) (hq : 0 < q) :
    pow2 (qlog2 q) ≤ q ∧ q < pow2 (qlog2 q + 1) := by
  have hnum_pos : 0 < q.num := Rat.num_pos.mpr hq
  have hn : 1 ≤ q.num.natAbs := by omega
  have hd : 1 ≤ q.den := q.den_pos
  have hq_eq : q = (q.num.natAbs : ℚ) / (q.den : ℚ) := rat_eq_num_div_den q hq.le
  obtain ⟨hnl, hnu⟩ := natLog2_spec hn
  obtain ⟨hdl, hdu⟩ := natLog2_spec hd
  have hdQ : (0:ℚ) < (q.den : ℚ) := by exact_mod_cast q.den_pos
  have hA : q < pow2 ((natLog2 q.num.natAbs : Int) - (natLog2 q.den : Int) + 1) := by
    have he : pow2 ((natLog2 q.num.natAbs : Int) - (natLog2 q.den : Int) + 1)
        = ((2 ^ (natLog2 q.num.natAbs + 1) : Nat) : ℚ) / ((2 ^ natLog2 q.den : Nat) : ℚ) := by
      rw [show ((natLog2 q.num.natAbs : Int) - (natLog2 q.den : Int) + 1)
          = ((natLog2 q.num.natAbs + 1 : Nat) : Int) - ((natLog2 q.den : Nat) : Int) by
            push_cast; ring,
        pow2_sub, pow2_natCast, pow2_natCast]
    rw [he]
    calc q = (q.num.natAbs : ℚ) / (q.den : ℚ) := hq_eq
      _ < ((2 ^ (natLog2 q.num.natAbs + 1) : Nat) : ℚ) / ((2 ^ natLog2 q.den : Nat) : ℚ) := by
        rw [div_lt_div_iff₀ hdQ (by positivity)]
        calc (q.num.natAbs : ℚ) * ((2 ^ natLog2 q.den : Nat) : ℚ)
            < ((2 ^ (natLog2 q.num.natAbs + 1) : Nat) : ℚ) * ((2 ^ natLog2 q.den : Nat) : ℚ) := by
              apply mul_lt_mul_of_pos_right _ (by positivity)
              exact_mod_cast hnu
          _ ≤ ((2 ^ (natLog2 q.num.natAbs + 1) : Nat) : ℚ) * (q.den : ℚ) := by
              apply mul_le_mul_of_nonneg_left _ (by positivity)
              exact_mod_cast hdl
  have hB : pow2 ((natLog2 q.num.natAbs : Int) - (natLog2 q.den : Int) - 1) < q := by
    have he : pow2 ((natLog2 q.num.natAbs : Int) - (natLog2 q.den : Int) - 1)
        = ((2 ^ natLog2 q.num.natAbs : Nat) : ℚ) / ((2 ^ (natLog2 q.den + 1) : Nat) : ℚ) := by
      rw [show ((natLog2 q.num.natAbs : Int) - (natLog2 q.den : Int) - 1)
          = ((natLog2 q.num.natAbs : Nat) : Int) - ((natLog2 q.den + 1 : Nat) : Int) by
            push_cast; ring,
        pow2_sub, pow2_natCast, pow2_natCast]
    rw [he]
    have hnQ : (0:ℚ) < (q.num.natAbs : ℚ) := by exact_mod_cast hn
    have hstep : ((2 ^ natLog2 q.num.natAbs : Nat) : ℚ) / ((2 ^ (natLog2 q.den + 1) : Nat) : ℚ)
        < (q.num.natAbs : ℚ) / (q.den : ℚ) := by
      rw [div_lt_div_iff₀ (by positivity) hdQ]
      calc ((2 ^ natLog2 q.num.natAbs : Nat) : ℚ) * (q.den : ℚ)
          ≤ (q.num.natAbs : ℚ) * (q.den : ℚ) := by
            apply mul_le_mul_of_nonneg_right _ hdQ.le
            exact_mod_cast hnl
        _ < (q.num.natAbs : ℚ) * ((2 ^ (natLog2 q.den + 1) : Nat) : ℚ) := by
            apply mul_lt_mul_of_pos_left _ hnQ
            exact_mod_cast hdu
    calc ((2 ^ natLog2 q.num.natAbs : Nat) : ℚ) / ((2 ^ (natLog2 q.den + 1) : Nat) : ℚ)
        < (q.num.natAbs : ℚ) / (q.den : ℚ) := hstep
      _ = q := hq_eq.symm
  simp only [qlog2]
  split_ifs with h
  · refine ⟨h, ?_⟩
    exact hA
  · refine ⟨?_, ?_⟩
    · have hB2 := hB
      exact le_of_lt hB2
    · have h2 : q < pow2 ((natLog2 q.num.natAbs : Int) - (natLog2 q.den : Int)) :=
        not_le.mp h
      simpa using h2

/-! ### Range of the rounded significand and exponent -/

theorem roundMag_spec (q : ℚ) (k : Nat) (hk : 1 ≤ k)
    (hq : q = (k : ℚ) * pow2 (-149)) :
    1 ≤ (roundMag q).1 ∧ (roundMag q).1 < 2 ^ 24 ∧ -149 ≤ (roundMag q).2 ∧
      (2 ^ 23 ≤ (roundMag q).1 ∨ (roundMag q).2 = -149) := by
  have hkQ : (0:ℚ) < (k : ℚ) := by exact_mod_cast hk
  have hq0 : 0 < q := by rw [hq]; exact mul_pos hkQ (pow2_pos _)
  obtain ⟨hEl, hEu⟩ := qlog2_spec q hq0
  by_cases hcase : -149 ≤ qlog2 q - 23
  · -- normal path: the grid exponent is qlog2 q - 23
    have hg : max (qlog2 q - 23) (-149) = qlog2 q - 23 := max_eq_left (by omega)
    have hx0 : (0:ℚ) ≤ q / pow2 (qlog2 q - 23) := div_nonneg hq0.le (pow2_pos _).le
    have hx_lo : ((2 ^ 23 : Nat) : ℚ) ≤ q / pow2 (qlog2 q - 23) := by
      rw [le_div_iff₀ (pow2_pos _), ← pow2_natCast 23]
      calc pow2 (23 : Int) * pow2 (qlog2 q - 23) = pow2 (23 + (qlog2 q - 23)) :=
            (pow2_add _ _).symm
        _ = pow2 (qlog2 q) := by norm_num
        _ ≤ q := hEl
    have hx_hi : q / pow2 (qlog2 q - 23) < ((2 ^ 24 : Nat) : ℚ) := by
      rw [div_lt_iff₀ (pow2_pos _), ← pow2_natCast 24]
      calc q < pow2 (qlog2 q + 1) := hEu
        _ = pow2 ((24 : Int) + (qlog2 q - 23)) := by congr 1; ring
        _ = pow2 (24 : Int) * pow2 (qlog2 q - 23) := pow2_add _ _
    set x := q / pow2 (qlog2 q - 23) with hx_def
    have hnd_lo : 2 ^ 23 ≤ x.num.natAbs / x.den := by
      by_contra hlt
      have h1 : x.num.natAbs / x.den + 1 ≤ 2 ^ 23 := by omega
      have h2 : x < ((x.num.natAbs / x.den + 1 : Nat) : ℚ) := rat_lt_nat_div_succ x hx0
      have h3 : ((x.num.natAbs / x.den + 1 : Nat) : ℚ) ≤ ((2 ^ 23 : Nat) : ℚ) := by
        exact_mod_cast h1
      exact absurd hx_lo (not_le.mpr (lt_of_lt_of_le h2 h3))
    have hnd_hi : x.num.natAbs / x.den < 2 ^ 24 := by
      have h2 : ((x.num.natAbs / x.den : Nat) : ℚ) ≤ x := nat_div_le_rat x hx0
      have h3 : ((x.num.natAbs / x.den : Nat) : ℚ) < ((2 ^ 24 : Nat) : ℚ) :=
        lt_of_le_of_lt h2 hx_hi
      exact_mod_cast h3
    have hm_lo := rdiv_ne_ge x.num.natAbs x.den
    have hm_hi := rdiv_ne_le x.num.natAbs x.den
    simp only [roundMag, hg, ← hx_def]
    split_ifs with hbump
    · refine ⟨by norm_num, by norm_num, by omega, Or.inl (by norm_num)⟩
    · refine ⟨by omega, by omega, by omega, Or.inl (by omega)⟩
  · -- subnormal path: the grid exponent is clamped at -149
    have hg : max (qlog2 q - 23) (-149) = -149 := max_eq_right (by omega)
    have hx : q / pow2 (-149) = (k : ℚ) := by
      rw [hq]
      exact mul_div_cancel_right₀ _ (pow2_ne_zero _)
    have hk150 : (k : ℚ) < pow2 (qlog2 q + 150) := by
      rw [← hx, div_lt_iff₀ (pow2_pos _)]
      calc q < pow2 (qlog2 q + 1) := hEu
        _ = pow2 (qlog2 q + 150) * pow2 (-149) := by rw [← pow2_add]; congr 1; ring
    have hk_hi : k < 2 ^ 23 := by
      have h2 : pow2 (qlog2 q + 150) ≤ pow2 ((23 : Nat) : Int) :=
        pow2_le_pow2 (by omega)
      have h3 : (k : ℚ) < ((2 ^ 23 : Nat) : ℚ) := by
        rw [← pow2_natCast 23]
        exact lt_of_lt_of_le hk150 h2
      exact_mod_cast h3
    simp only [roundMag, hg, hx, Rat.num_natCast, Rat.den_natCast, Int.natAbs_ofNat,
      rdiv_ne_one]
    split_ifs with hbump
    · omega
    · exact ⟨hk, by omega, le_refl _, Or.inr rfl⟩

/-! ### Facts about exact values of finite floats -/

theorem finVal_eq_zero_iff (s : Bool) (m : Nat) (e : Int) :
    finVal s m e = 0 ↔ m = 0 := by
  cases s <;> simp [finVal, pow2_ne_zero]

theorem finVal_nonpos_of_true (m : Nat) (e : Int) : finVal true m e ≤ 0 := by
  have h : (0:ℚ) ≤ (m:ℚ) * pow2 e := mul_nonneg (Nat.cast_nonneg m) (pow2_pos e).le
  have hdef : finVal true m e = -1 * ((m:ℚ) * pow2 e) := by
    show (-1 : ℚ) * (m:ℚ) * pow2 e = -1 * ((m:ℚ) * pow2 e)
    ring
  rw [hdef]
  linarith

theorem finVal_pos_sign (s : Bool) (m : Nat) (e : Int) (h : 0 < finVal s m e) :
    s = false := by
  cases s
  · rfl
  · exact absurd h (not_lt.mpr (finVal_nonpos_of_true m e))

theorem finVal_neg_of_true (m : Nat) (e : Int) (h : m ≠ 0) : finVal true m e < 0 :=
  lt_of_le_of_ne (finVal_nonpos_of_true m e)
    (fun h0 => h ((finVal_eq_zero_iff true m e).mp h0))

theorem finVal_grid (s : Bool) (m : Nat) (e : Int) (he : -149 ≤ e) :
    ∃ k : Int, finVal s m e = (k : ℚ) * pow2 (-149) := by
  refine ⟨(if s then -1 else 1) * m * 2 ^ (e + 149).toNat, ?_⟩
  have h2 : pow2 e = ((2 ^ (e + 149).toNat : Nat) : ℚ) * pow2 (-149) := by
    rw [← pow2_natCast, ← pow2_add]
    congr 1
    omega
  unfold finVal
  rw [h2]
  push_cast
  cases s <;> simp <;> ring

/-! ### The rounding of a nonzero on-grid rational is canonical and not a
(negative or non-canonical) zero -/

theorem roundF32_good (r : ℚ) (hr : r ≠ 0) (k : Int)
    (hgrid : r = (k : ℚ) * pow2 (-149)) :
    (roundF32 r).canonical = true ∧ (roundF32 r).okAcc = true := by
  have hk0 : k ≠ 0 := by
    rintro rfl
    rw [hgrid] at hr
    simp at hr
  have habs : |r| = ((k.natAbs : ℚ)) * pow2 (-149) := by
    rw [hgrid, abs_mul, abs_of_pos (pow2_pos _)]
    congr 1
    rw [Int.cast_natAbs]
    exact Int.cast_abs.symm
  have hk1 : 1 ≤ k.natAbs := by omega
  obtain ⟨h1, h2, h3, h4⟩ := roundMag_spec |r| k.natAbs hk1 habs
  simp only [roundF32, if_neg hr]
  split_ifs with hz hs hg
  · omega
  · omega
  · exact ⟨rfl, rfl⟩
  · constructor
    · simp only [F32.canonical, decide_eq_true_eq]
      omega
    · simp only [F32.okAcc, decide_eq_true_eq]
      omega

/-! ### Addition preserves canonicity and the accumulator invariant -/

theorem canonical_exp_ge (s : Bool) (m : Nat) (e : Int)
    (h : (F32.fin s m e).canonical = true) : -149 ≤ e := by
  simp only [F32.canonical, decide_eq_true_eq] at h
  omega

theorem f32add_good (x y : F32) (hxc : x.canonical = true) (hxo : x.okAcc = true)
    (hyc : y.canonical = true) :
    (f32add x y).canonical = true ∧ (f32add x y).okAcc = true := by
  cases x with
  | nan => cases y <;> exact ⟨rfl, rfl⟩
  | inf sx =>
    cases y with
    | nan => exact ⟨rfl, rfl⟩
    | inf sy =>
      simp only [f32add]
      split_ifs <;> exact ⟨rfl, rfl⟩
    | fin sy my ey => exact ⟨rfl, rfl⟩
  | fin sx mx ex =>
    cases y with
    | nan => exact ⟨rfl, rfl⟩
    | inf sy => exact ⟨rfl, rfl⟩
    | fin sy my ey =>
      simp only [f32add]
      split_ifs with hr0 hsxy hmx hmy
      · -- both operands are negative zeros: impossible, the accumulator is
        -- never a negative zero
        exfalso
        rw [Bool.and_eq_true] at hsxy
        obtain ⟨hsx, hsy⟩ := hsxy
        subst hsx; subst hsy
        simp only [F32.okAcc, decide_eq_true_eq] at hxo
        have hmx0 : mx ≠ 0 := by
          rcases hxo with h | ⟨h, _⟩
          · exact h
          · exact absurd h (by simp)
        have hneg : finVal true mx ex < 0 := finVal_neg_of_true mx ex hmx0
        have hpos : 0 < finVal true my ey := by linarith
        have := finVal_pos_sign true my ey hpos
        simp at this
      · exact ⟨by decide, by decide⟩
      · refine ⟨hyc, ?_⟩
        have hmy0 : my ≠ 0 := by
          intro h0
          apply hr0
          rw [(finVal_eq_zero_iff sx mx ex).mpr hmx, (finVal_eq_zero_iff sy my ey).mpr h0]
          ring
        simp only [F32.okAcc, decide_eq_true_eq]
        exact Or.inl hmy0
      · exact ⟨hxc, hxo⟩
      · obtain ⟨k1, hk1⟩ := finVal_grid sx mx ex (canonical_exp_ge sx mx ex hxc)
        obtain ⟨k2, hk2⟩ := finVal_grid sy my ey (canonical_exp_ge sy my ey hyc)
        apply roundF32_good _ hr0 (k1 + k2)
        rw [hk1, hk2]
        push_cast
        ring

theorem f32add_posZero (y : F32) (hy : y.okAcc = true) : f32add posZero y = y := by
  cases y with
  | nan => rfl
  | inf sy => rfl
  | fin sy my ey =>
    have hz : finVal false 0 (-149) = 0 := by simp [finVal]
    simp only [posZero, f32add, hz, zero_add]
    split_ifs with hr0 hsxy
    · simp at hsxy
    · have hmy0 : my = 0 := (finVal_eq_zero_iff sy my ey).mp hr0
      simp only [F32.okAcc, decide_eq_true_eq] at hy
      rcases hy with h | ⟨hs, he⟩
      · exact absurd hmy0 h
      · subst hs; subst hmy0; subst he; rfl
    · rfl

/-! ### The left-to-right sum keeps the accumulator canonical and never
produces a negative zero -/

theorem foldl_f32add_good : ∀ (data : List F32) (acc : F32),
    acc.canonical = true → acc.okAcc = true → (∀ x ∈ data, x.canonical = true) →
    (data.foldl f32add acc).canonical = true ∧ (data.foldl f32add acc).okAcc = true
  | [], acc, hc, ho, _ => ⟨hc, ho⟩
  | d :: rest, acc, hc, ho, hd => by
    have hdc : d.canonical = true := hd d (List.mem_cons_self _ _)
    obtain ⟨h1, h2⟩ := f32add_good acc d hc ho hdc
    exact foldl_f32add_good rest (f32add acc d) h1 h2
      (fun x hx => hd x (List.mem_cons_of_mem _ hx))

theorem sumList_good (data : List F32) (h : ∀ x ∈ data, x.canonical = true) :
    (sumList f32A data).canonical = true ∧ (sumList f32A data).okAcc = true := by
  have hres := foldl_f32add_good data posZero (by decide) (by decide) h
  simpa [sumList, f32A] using hres

/-! ### Structural facts about the group loops -/

theorem avxLoop_short (A : Arith F) (data acc : List F) (h : data.length < 8) :
    avxLoop A data acc = (acc, data) := by
  rcases data with _ | ⟨a0, _ | ⟨a1, _ | ⟨a2, _ | ⟨a3, _ | ⟨a4, _ | ⟨a5, _ | ⟨a6, _ | ⟨a7, rest⟩⟩⟩⟩⟩⟩⟩⟩
  · rfl
  · rfl
  · rfl
  · rfl
  · rfl
  · rfl
  · rfl
  · rfl
  · simp only [List.length_cons] at h
    omega

theorem chunksExact8_short (data : List F) (h : data.length < 8) :
    chunksExact8 data = ([], data) := by
  rcases data with _ | ⟨a0, _ | ⟨a1, _ | ⟨a2, _ | ⟨a3, _ | ⟨a4, _ | ⟨a5, _ | ⟨a6, _ | ⟨a7, rest⟩⟩⟩⟩⟩⟩⟩⟩
  · rfl
  · rfl
  · rfl
  · rfl
  · rfl
  · rfl
  · rfl
  · rfl
  · simp only [List.length_cons] at h
    omega

theorem avxLoop_rem_nil (A : Arith F) :
    ∀ (data acc : List F), 8 ∣ data.length → (avxLoop A data acc).2 = []
  | [], _, _ => rfl
  | [a0], _, h => by simp only [List.length_cons, List.length_nil] at h; omega
  | [a0, a1], _, h => by simp only [List.length_cons, List.length_nil] at h; omega
  | [a0, a1, a2], _, h => by simp only [List.length_cons, List.length_nil] at h; omega
  | [a0, a1, a2, a3], _, h => by simp only [List.length_cons, List.length_nil] at h; omega
  | [a0, a1, a2, a3, a4], _, h => by simp only [List.length_cons, List.length_nil] at h; omega
  | [a0, a1, a2, a3, a4, a5], _, h => by simp only [List.length_cons, List.length_nil] at h; omega
  | [a0, a1, a2, a3, a4, a5, a6], _, h => by simp only [List.length_cons, List.length_nil] at h; omega
  | a0 :: a1 :: a2 :: a3 :: a4 :: a5 :: a6 :: a7 :: rest, acc, h => by
    have h8 : 8 ∣ rest.length := by
      simp only [List.length_cons] at h
      omega
    simpa only [avxLoop] using avxLoop_rem_nil A rest _ h8

theorem chunksExact8_rem_nil :
    ∀ (data : List F), 8 ∣ data.length → (chunksExact8 data).2 = []
  | [], _ => rfl
  | [a0], h => by simp only [List.length_cons, List.length_nil] at h; omega
  | [a0, a1], h => by simp only [List.length_cons, List.length_nil] at h; omega
  | [a0, a1, a2], h => by simp only [List.length_cons, List.length_nil] at h; omega
  | [a0, a1, a2, a3], h => by simp only [List.length_cons, List.length_nil] at h; omega
  | [a0, a1, a2, a3, a4], h => by simp only [List.length_cons, List.length_nil] at h; omega
  | [a0, a1, a2, a3, a4, a5], h => by simp only [List.length_cons, List.length_nil] at h; omega
  | [a0, a1, a2, a3, a4, a5, a6], h => by simp only [List.length_cons, List.length_nil] at h; omega
  | a0 :: a1 :: a2 :: a3 :: a4 :: a5 :: a6 :: a7 :: rest, h => by
    have h8 : 8 ∣ rest.length := by
      simp only [List.length_cons] at h
      omega
    simpa only [chunksExact8] using chunksExact8_rem_nil rest h8

theorem chunksExact8_flatten :
    ∀ (data : List F), (chunksExact8 data).1.flatten ++ (chunksExact8 data).2 = data
  | [] => rfl
  | [a0] => rfl
  | [a0, a1] => rfl
  | [a0, a1, a2] => rfl
  | [a0, a1, a2, a3] => rfl
  | [a0, a1, a2, a3, a4] => rfl
  | [a0, a1, a2, a3, a4, a5] => rfl
  | [a0, a1, a2, a3, a4, a5, a6] => rfl
  | a0 :: a1 :: a2 :: a3 :: a4 :: a5 :: a6 :: a7 :: rest => by
    have ih := chunksExact8_flatten rest
    simp only [chunksExact8, List.flatten_cons, List.cons_append, List.append_assoc,
      List.nil_append]
    simp only [List.cons.injEq, true_and]
    simpa using ih

/-! ### Sums over exact rational arithmetic -/

theorem foldl_add_rat : ∀ (l : List ℚ) (a : ℚ), l.foldl (· + ·) a = a + l.sum
  | [], a => by simp
  | x :: xs, a => by
    rw [List.foldl_cons, foldl_add_rat xs (a + x), List.sum_cons]
    ring

theorem sumList_rat (l : List ℚ) : sumList ratA l = l.sum := by
  show l.foldl (· + ·) 0 = l.sum
  rw [foldl_add_rat]
  ring

theorem sum_zipWith_add :
    ∀ (l1 l2 : List ℚ), l1.length = l2.length →
      (List.zipWith (· + ·) l1 l2).sum = l1.sum + l2.sum
  | [], [], _ => by simp
  | [], _ :: _, h => by simp at h
  | _ :: _, [], h => by simp at h
  | x :: xs, y :: ys, h => by
    have hlen : xs.length = ys.length := by simpa using h
    simp only [List.zipWith_cons_cons, List.sum_cons, sum_zipWith_add xs ys hlen]
    ring

theorem avxLoop_sum :
    ∀ (data acc : List ℚ), acc.length = 8 →
      ((avxLoop ratA data acc).1).sum + ((avxLoop ratA data acc).2).sum
        = acc.sum + data.sum
  | [], acc, _ => by simp [avxLoop]
  | [a0], acc, _ => by simp [avxLoop]
  | [a0, a1], acc, _ => by simp [avxLoop]
  | [a0, a1, a2], acc, _ => by simp [avxLoop]
  | [a0, a1, a2, a3], acc, _ => by simp [avxLoop]
  | [a0, a1, a2, a3, a4], acc, _ => by simp [avxLoop]
  | [a0, a1, a2, a3, a4, a5], acc, _ => by simp [avxLoop]
  | [a0, a1, a2, a3, a4, a5, a6], acc, _ => by simp [avxLoop]
  | a0 :: a1 :: a2 :: a3 :: a4 :: a5 :: a6 :: a7 :: rest, acc, hlen => by
    have hlen2 : (List.zipWith ratA.add acc [a0, a1, a2, a3, a4, a5, a6, a7]).length = 8 := by
      simp [List.length_zipWith, hlen]
    have ih := avxLoop_sum rest (List.zipWith ratA.add acc [a0, a1, a2, a3, a4, a5, a6, a7])
      hlen2
    have hzip : (List.zipWith ratA.add acc [a0, a1, a2, a3, a4, a5, a6, a7]).sum
        = acc.sum + (a0 + a1 + a2 + a3 + a4 + a5 + a6 + a7) := by
      have h8 : acc.length = ([a0, a1, a2, a3, a4, a5, a6, a7] : List ℚ).length := by
        simpa using hlen
      have := sum_zipWith_add acc [a0, a1, a2, a3, a4, a5, a6, a7] h8
      show (List.zipWith (· + ·) acc [a0, a1, a2, a3, a4, a5, a6, a7]).sum
          = acc.sum + (a0 + a1 + a2 + a3 + a4 + a5 + a6 + a7)
      rw [this]
      simp [List.sum_cons]
      ring
    show ((avxLoop ratA (a0 :: a1 :: a2 :: a3 :: a4 :: a5 :: a6 :: a7 :: rest) acc).1).sum
        + ((avxLoop ratA (a0 :: a1 :: a2 :: a3 :: a4 :: a5 :: a6 :: a7 :: rest) acc).2).sum
        = acc.sum + (a0 :: a1 :: a2 :: a3 :: a4 :: a5 :: a6 :: a7 :: rest).sum
    simp only [avxLoop]
    rw [ih, hzip]
    simp [List.sum_cons]
    ring

/-! ### In exact arithmetic all three strategies compute the same quantity -/

theorem simd_avx_eq_scalar_rat (data : List ℚ) :
    calculate_mean_simd_avx ratA data = calculate_mean_scalar ratA data := by
  have h := avxLoop_sum data (List.replicate 8 ratA.zero) (by simp)
  have hrep : (List.replicate 8 ratA.zero).sum = 0 := by
    simp [ratA]
  show ((avxLoop ratA data (List.replicate 8 ratA.zero)).1.foldl (· + ·) 0
      + (avxLoop ratA data (List.replicate 8 ratA.zero)).2.foldl (· + ·) 0)
        / (data.length : ℚ)
    = (data.foldl (· + ·) 0) / (data.length : ℚ)
  rw [foldl_add_rat, foldl_add_rat, foldl_add_rat]
  rw [zero_add, zero_add, zero_add, h, hrep, zero_add]

theorem chunks_eq_scalar_rat (data : List ℚ) :
    calculate_mean_chunks ratA data = calculate_mean_scalar ratA data := by
  have hfun : sumList ratA = List.sum := funext sumList_rat
  have hflat := chunksExact8_flatten data
  show ratA.div (ratA.add (sumList ratA ((chunksExact8 data).1.map (sumList ratA)))
      (sumList ratA (chunksExact8 data).2)) (ratA.ofLen data.length)
    = ratA.div (sumList ratA data) (ratA.ofLen data.length)
  rw [hfun]
  show (((chunksExact8 data).1.map List.sum).sum + (chunksExact8 data).2.sum)
        / (data.length : ℚ)
    = data.sum / (data.length : ℚ)
  rw [← List.sum_flatten, ← List.sum_append, hflat]

theorem scalar_rat_replicate (n : Nat) (v : ℚ) (h : 1 ≤ n) :
    calculate_mean_scalar ratA (List.replicate n v) = v := by
  have hn : ((n:ℚ)) ≠ 0 := Nat.cast_ne_zero.mpr (by omega)
  show sumList ratA (List.replicate n v) / ((List.replicate n v).length : ℚ) = v
  rw [sumList_rat, List.sum_replicate, List.length_replicate, nsmul_eq_mul]
  exact mul_div_cancel_left₀ v hn

/-! ## Claim theorems -/

/-- C2: for every buffer of N 32-bit float values (N may be 0), the scalar
reducer returns the float obtained by summing all elements left-to-right in
index order starting from 0.0 and dividing that sum by N.  The source's
`calculate_mean_scalar` coincides with the spec's wording
(`scalarMeanPerSpec`) for every arithmetic interpretation, in particular the
binary32 one. -/
theorem scalar_mean_follows_spec (F : Type) (A : Arith F) (data : List F) :
    calculate_mean_scalar A data = scalarMeanPerSpec A data := rfl

/-- C3: for every buffer and every arithmetic, when the AVX feature is not
detected on x86_64 the vectorized reducer returns exactly the scalar
reducer's value, and on non-x86_64 architectures it returns exactly the
chunked reducer's value; both dispatches are total functions, so no error is
signalled. -/
theorem simd_fallback_transparent (F : Type) (A : Arith F) (b : Bool) (data : List F) :
    calculate_mean_simd A Arch.x86_64 false data = calculate_mean_scalar A data ∧
    calculate_mean_simd A Arch.other b data = calculate_mean_chunks A data :=
  ⟨rfl, rfl⟩

/-- C5: on the empty buffer the scalar reducer (and likewise the chunked
reducer) returns a value rather than signalling an error: the 0.0/0.0
division yields IEEE-754 NaN. -/
theorem empty_buffer_is_nan :
    calculate_mean_scalar f32A [] = F32.nan ∧
    calculate_mean_chunks f32A [] = F32.nan := by
  constructor <;> rfl

/-- C10: the scalar reducer is a pure function of its input list in this
embedding (the Rust function reads only its borrowed slice and no hidden
state), so two invocations on the same buffer give bit-identical results. -/
theorem scalar_deterministic (F : Type) (A : Arith F) (data : List F) :
    calculate_mean_scalar A data = calculate_mean_scalar A data := rfl

/-- C8: the size-label formatter maps sizes at or above 1,000,000 to
`<n>M`, sizes at or above 1,000 (and below 1,000,000) to `<n>K`, and smaller
sizes to their plain decimal representation, with truncating integer
division; including the spec's concrete cases. -/
theorem format_size_spec :
    (∀ n : Nat,
      (1000000 ≤ n → format_size n = Nat.repr (n / 1000000) ++ "M") ∧
      (1000 ≤ n → n < 1000000 → format_size n = Nat.repr (n / 1000) ++ "K") ∧
      (n < 1000 → format_size n = Nat.repr n)) ∧
    format_size 500 = "500" ∧ format_size 1000 = "1K" ∧ format_size 50000 = "50K" ∧
    format_size 1000000 = "1M" ∧ format_size 100000000 = "100M" ∧
    format_size 1500000 = "1M" := by
  refine ⟨fun n => ⟨?_, ?_, ?_⟩, by decide, by decide, by decide, by decide, by decide,
    by decide⟩
  · intro h
    simp [format_size, h]
  · intro h1 h2
    have hne : ¬ 1000000 ≤ n := by omega
    simp [format_size, hne, h1]
  · intro h
    have h1 : ¬ 1000000 ≤ n := by omega
    have h2 : ¬ 1000 ≤ n := by omega
    simp [format_size, h1, h2]

/-- Witness for C8 at concrete inputs for each guarded branch. -/
theorem format_size_spec_witness :
    (1000000 ≤ 1500000 ∧ format_size 1500000 = Nat.repr (1500000 / 1000000) ++ "M") ∧
    (1000 ≤ 2500 ∧ 2500 < 1000000 ∧ format_size 2500 = Nat.repr (2500 / 1000) ++ "K") ∧
    (7 < 1000 ∧ format_size 7 = Nat.repr 7) :=
  ⟨⟨by decide, (format_size_spec.1 1500000).1 (by decide)⟩,
   ⟨by decide, by decide, (format_size_spec.1 2500).2.1 (by decide) (by decide)⟩,
   ⟨by decide, (format_size_spec.1 7).2.2 (by decide)⟩⟩

/-- C9: the reported speedup ratio equals the scalar duration divided by the
other strategy's duration when the latter is strictly positive, and is 0
(never a division by zero) when it is zero; the spec's example 200/100 = 2
holds. -/
theorem speedup_guarded (s o : ℚ) :
    (0 < o → speedup s o = s / o) ∧ speedup s 0 = 0 ∧ speedup 200 100 = 2 := by
  refine ⟨fun h => ?_, ?_, ?_⟩
  · simp [speedup, h]
  · simp [speedup]
  · norm_num [speedup]

/-- Witness for C9 at the spec's concrete durations. -/
theorem speedup_guarded_witness :
    0 < (100:ℚ) ∧ speedup 200 100 = 200 / 100 :=
  ⟨by norm_num, (speedup_guarded 200 100).1 (by norm_num)⟩

/-- C7: when the buffer length is an exact multiple of 8, the chunked
reducer's remainder slice is empty and its chunks flatten back to exactly the
input (every element in exactly one chunk, none dropped or duplicated), and
the vectorized loop consumes the whole buffer leaving an empty remainder, for
any arithmetic. -/
theorem multiple_of_eight_no_remainder (F : Type) (A : Arith F) (data acc : List F)
    (h : 8 ∣ data.length) :
    (chunksExact8 data).2 = [] ∧ (chunksExact8 data).1.flatten = data ∧
    (avxLoop A data acc).2 = [] := by
  have h1 := chunksExact8_rem_nil data h
  have h2 := chunksExact8_flatten data
  refine ⟨h1, ?_, avxLoop_rem_nil A data acc h⟩
  rw [h1, List.append_nil] at h2
  exact h2

/-- Witness for C7 on a concrete 8-element rational buffer. -/
theorem multiple_of_eight_no_remainder_witness :
    (8 ∣ ([(1:ℚ), 2, 3, 4, 5, 6, 7, 8] : List ℚ).length) ∧
    ((chunksExact8 ([(1:ℚ), 2, 3, 4, 5, 6, 7, 8] : List ℚ)).2 = [] ∧
      (chunksExact8 ([(1:ℚ), 2, 3, 4, 5, 6, 7, 8] : List ℚ)).1.flatten
        = [(1:ℚ), 2, 3, 4, 5, 6, 7, 8] ∧
      (avxLoop ratA [(1:ℚ), 2, 3, 4, 5, 6, 7, 8] (List.replicate 8 0)).2 = []) :=
  ⟨by decide,
    multiple_of_eight_no_remainder ℚ ratA [(1:ℚ), 2, 3, 4, 5, 6, 7, 8]
      (List.replicate 8 0) (by decide)⟩

/-- C6: for every canonically-represented f32 buffer of length strictly
between 0 and 8, the vectorized group loop and the chunked group summation
process zero groups (the loop returns its all-zero accumulator untouched and
the chunk list is empty), both reduce to the scalar summation of the
remainder, and both return exactly the scalar reducer's value. -/
theorem small_buffer_reduces_to_scalar (data : List F32)
    (hc : ∀ x ∈ data, x.canonical = true) (h0 : 0 < data.length)
    (h8 : data.length < 8) :
    calculate_mean_simd_avx f32A data = calculate_mean_scalar f32A data ∧
    calculate_mean_chunks f32A data = calculate_mean_scalar f32A data ∧
    avxLoop f32A data (List.replicate 8 f32A.zero) = (List.replicate 8 f32A.zero, data) ∧
    (chunksExact8 data).1 = [] := by
  have hloop := avxLoop_short f32A data (List.replicate 8 f32A.zero) h8
  have hch := chunksExact8_short data h8
  obtain ⟨hsc, hso⟩ := sumList_good data hc
  have hz : f32add posZero (sumList f32A data) = sumList f32A data :=
    f32add_posZero _ hso
  have hrep : sumList f32A (List.replicate 8 f32A.zero) = posZero := by decide
  refine ⟨?_, ?_, hloop, by rw [hch]⟩
  · have e1 : calculate_mean_simd_avx f32A data
        = f32A.div (f32A.add (sumList f32A (List.replicate 8 f32A.zero))
            (sumList f32A data)) (f32A.ofLen data.length) := by
      show f32A.div (f32A.add (sumList f32A (avxLoop f32A data (List.replicate 8 f32A.zero)).1)
          (sumList f32A (avxLoop f32A data (List.replicate 8 f32A.zero)).2))
          (f32A.ofLen data.length) = _
      rw [hloop]
    rw [e1, hrep]
    show f32A.div (f32add posZero (sumList f32A data)) (f32A.ofLen data.length)
        = f32A.div (sumList f32A data) (f32A.ofLen data.length)
    rw [hz]
  · have e2 : calculate_mean_chunks f32A data
        = f32A.div (f32A.add (sumList f32A (List.map (sumList f32A) []))
            (sumList f32A data)) (f32A.ofLen data.length) := by
      show f32A.div (f32A.add (sumList f32A ((chunksExact8 data).1.map (sumList f32A)))
          (sumList f32A (chunksExact8 data).2)) (f32A.ofLen data.length) = _
      rw [hch]
    rw [e2]
    show f32A.div (f32add posZero (sumList f32A data)) (f32A.ofLen data.length)
        = f32A.div (sumList f32A data) (f32A.ofLen data.length)
    rw [hz]

/-- Witness for C6 on the buffer of three copies of 3.0. -/
theorem small_buffer_reduces_to_scalar_witness :
    ((∀ x ∈ ([three32, three32, three32] : List F32), x.canonical = true) ∧
      0 < ([three32, three32, three32] : List F32).length ∧
      ([three32, three32, three32] : List F32).length < 8) ∧
    (calculate_mean_simd_avx f32A [three32, three32, three32]
        = calculate_mean_scalar f32A [three32, three32, three32] ∧
      calculate_mean_chunks f32A [three32, three32, three32]
        = calculate_mean_scalar f32A [three32, three32, three32] ∧
      avxLoop f32A [three32, three32, three32] (List.replicate 8 f32A.zero)
        = (List.replicate 8 f32A.zero, [three32, three32, three32]) ∧
      (chunksExact8 ([three32, three32, three32] : List F32)).1 = []) :=
  ⟨⟨by decide, by decide, by decide⟩,
    small_buffer_reduces_to_scalar [three32, three32, three32] (by decide) (by decide)
      (by decide)⟩

/-- C1 counterexample: on the canonical non-empty buffer `cancelBuf` the
scalar mean is 3/16 but the chunked mean is 4/16, so the two reducers do not
agree within relative error 1/10000: the claim's universally quantified
tolerance fails. -/
theorem reducer_tolerance_counterexample :
    (∀ x ∈ cancelBuf, x.canonical = true) ∧ cancelBuf ≠ [] ∧
    calculate_mean_scalar f32A cancelBuf = .fin false 12582912 (-26) ∧
    calculate_mean_chunks f32A cancelBuf = .fin false 8388608 (-25) ∧
    ¬ (|(calculate_mean_scalar f32A cancelBuf).toRat
          - (calculate_mean_chunks f32A cancelBuf).toRat|
        < (1 / 10000) * |(calculate_mean_scalar f32A cancelBuf).toRat|) := by
  refine ⟨by decide, by decide, by decide, by decide, by decide⟩

/-- C1 (amended): the three reducers compute the same mathematical quantity
via different summation orders: with exact (rational) arithmetic their
outputs coincide on every non-empty buffer; under f32 rounding the deviation
comes only from summation order and is not bounded by a universal relative
tolerance such as 1e-4. -/
theorem reducers_agree_exact (data : List ℚ) (h : data ≠ []) :
    calculate_mean_scalar ratA data = calculate_mean_simd_avx ratA data ∧
    calculate_mean_scalar ratA data = calculate_mean_chunks ratA data :=
  ⟨(simd_avx_eq_scalar_rat data).symm, (chunks_eq_scalar_rat data).symm⟩

/-- Witness for the amended C1 on a concrete non-empty buffer. -/
theorem reducers_agree_exact_witness :
    ([(1:ℚ), 2, 3] : List ℚ) ≠ [] ∧
    (calculate_mean_scalar ratA [(1:ℚ), 2, 3] = calculate_mean_simd_avx ratA [(1:ℚ), 2, 3] ∧
      calculate_mean_scalar ratA [(1:ℚ), 2, 3] = calculate_mean_chunks ratA [(1:ℚ), 2, 3]) :=
  ⟨by decide, reducers_agree_exact [(1:ℚ), 2, 3] (by decide)⟩

/-- C4 counterexample: for the canonical value `vTriple` (11184814 * 2^-23)
and N = 3, all three reducers return 11184813 * 2^-23, which is not the
buffer's constant value: the f32 mean of identical values is not always
exactly that value. -/
theorem identical_values_counterexample :
    vTriple.canonical = true ∧
    calculate_mean_scalar f32A [vTriple, vTriple, vTriple] = .fin false 11184813 (-23) ∧
    calculate_mean_simd_avx f32A [vTriple, vTriple, vTriple] = .fin false 11184813 (-23) ∧
    calculate_mean_chunks f32A [vTriple, vTriple, vTriple] = .fin false 11184813 (-23) ∧
    calculate_mean_scalar f32A [vTriple, vTriple, vTriple] ≠ vTriple ∧
    calculate_mean_simd_avx f32A [vTriple, vTriple, vTriple] ≠ vTriple ∧
    calculate_mean_chunks f32A [vTriple, vTriple, vTriple] ≠ vTriple := by
  refine ⟨by decide, by decide, by decide, by decide, by decide, by decide, by decide⟩

/-- C4 (amended): for every N at least 1 and every value v, on a buffer of N
copies of v all three reducers return exactly v in exact (rational)
arithmetic; under f32 rounding the common result can differ from v by a final
rounding error. -/
theorem identical_values_exact (n : Nat) (v : ℚ) (h : 1 ≤ n) :
    calculate_mean_scalar ratA (List.replicate n v) = v ∧
    calculate_mean_simd_avx ratA (List.replicate n v) = v ∧
    calculate_mean_chunks ratA (List.replicate n v) = v := by
  have hs := scalar_rat_replicate n v h
  exact ⟨hs, by rw [simd_avx_eq_scalar_rat]; exact hs,
    by rw [chunks_eq_scalar_rat]; exact hs⟩

/-- Witness for the amended C4 at N = 3, v = 5/2. -/
theorem identical_values_exact_witness :
    1 ≤ 3 ∧
    (calculate_mean_scalar ratA (List.replicate 3 (5/2 : ℚ)) = 5/2 ∧
      calculate_mean_simd_avx ratA (List.replicate 3 (5/2 : ℚ)) = 5/2 ∧
      calculate_mean_chunks ratA (List.replicate 3 (5/2 : ℚ)) = 5/2) :=
  ⟨by decide, identical_values_exact 3 (5/2) (by decide)⟩
